import Mathlib

/-!
Verification of the beluga IVP-solution kernel (`beluga/ivpsol/ivpsol.py`).

A shallow embedding of the quadrature-reconstruction kernel: the `Trajectory`
container, the quadrature integrator `integrate_quads` and the reconstructor
`reconstruct`.  Real numbers are modelled by `ℚ` (the code's arithmetic is
exact piecewise-rational in its inputs), Python `None` by `Option`, and raised
exceptions by `Except`.  Each definition mirrors the corresponding lines of
`ivpsol.py`.
-/

namespace Beluga

/-- The Python exceptions the kernel can raise.
`domainError` stands for `Exception('Time span out of integration bounds.')`
(ivpsol.py lines 190-194); the others are the builtin exceptions raised by the
corresponding illegal operations (`IndexError` for out-of-range subscripts,
`TypeError` for `len(None)` / subscripting `None` / unpacking `None`,
`AttributeError` for `None.shape`, `ValueError` for `np.interp` with
mismatched sample lengths). -/
inductive PyErr where
  | domainError
  | indexError
  | typeError
  | attributeError
  | valueError
deriving DecidableEq, Repr

/-- `Trajectory.__new__` (lines 67-87): four attributes, each `None` until the
corresponding positional argument is supplied.  `t` is the sample-time list,
`y` the list of state vectors (the rows of the `(n, d)` state array), `q` the
list of quadrature vectors, `u` the list of control vectors. -/
structure Trajectory where
  t : Option (List ℚ)
  y : Option (List (List ℚ))
  q : Option (List (List ℚ))
  u : Option (List (List ℚ))
deriving DecidableEq, Repr

/-- A `Trajectory()` built with no arguments: every attribute is `None`. -/
def Trajectory.mkEmpty : Trajectory := ⟨none, none, none, none⟩

/-- `Trajectory.__len__` (lines 134-138): `0` if `t is None`, else `len(t)`. -/
def Trajectory.len (γ : Trajectory) : ℕ :=
  match γ.t with
  | none => 0
  | some ts => ts.length

/-- `np.interp τ xp fp` for increasing `xp`: piecewise-linear interpolation with
constant extrapolation at both ends (`fp.head` below `xp.head`, `fp.getLast`
above `xp.getLast`).  Mismatched lengths never occur on the paths we verify. -/
def interp (τ : ℚ) : List ℚ → List ℚ → ℚ
  | x0 :: x1 :: xs, f0 :: f1 :: fs =>
      if τ ≤ x0 then f0
      else if τ ≤ x1 then f0 + (f1 - f0) * (τ - x0) / (x1 - x0)
      else interp τ (x1 :: xs) (f1 :: fs)
  | [_], [f] => f
  | _, _ => 0

/-- The per-dimension interpolated state query of `Trajectory.__call__`
(lines 103-111): `y_val = [np.interp(t, self.t, self.y.T[ii]) for ii in
range(dim)]`.  A 1-D state array (`dim = 1`) is the `d = 1` instance of the
same formula, as the code treats a scalar state as a 1-vector. -/
def trajY (ts : List ℚ) (ys : List (List ℚ)) (τ : ℚ) : List ℚ :=
  let dim := (ys.headD []).length
  (List.range dim).map (fun j => interp τ ts (ys.map (fun r => r.getD j 0)))

/-- `Trajectory.__call__` (lines 89-113).  `len(self.t)` raises `TypeError` on
`t = None`; a zero-sample trajectory returns `None` outright; otherwise the
state is interpolated per dimension and the quadrature/control components of
the result are always `None` (`q_val`/`u_val` are never assigned).
`np.interp` raises `ValueError` when `len(t)` and the state column length
disagree, and `None.shape` raises `AttributeError`. -/
def Trajectory.call (γ : Trajectory) (τ : ℚ) :
    Except PyErr (Option (List ℚ × Option (List ℚ) × Option (List ℚ))) :=
  match γ.t with
  | none => .error .typeError
  | some ts =>
    if ts.length = 0 then .ok none
    else
      match γ.y with
      | none => .error .attributeError
      | some ys =>
        if ys.length = ts.length then .ok (some (trajY ts ys τ, none, none))
        else .error .valueError

/-- The implicit index sequence `x_set_temp = np.arange(0, l, 1)` (line 197). -/
def idxSeq (n : ℕ) : List ℚ := List.map (fun i : ℕ => (i : ℚ)) (List.range n)

/-- The evaluation grid `x_interp` assembled by `integrate_quads`
(lines 196-210): `ind0`/`indf` are `int(np.ceil(np.interp(t, gamma.t,
x_set_temp)))` for the two span endpoints; the grid is `t_a` (unless it equals
`gamma.t[ind0]`), the slice `gamma.t[ind0:indf]`, and `t_b` (unless it equals
`gamma.t[indf-1]`, which by Python negative indexing is the LAST sample when
`indf = 0`). -/
def quadGrid (ts : List ℚ) (ta tb : ℚ) : List ℚ :=
  let n := ts.length
  let ind0 : ℕ := (⌈interp ta ts (idxSeq n)⌉).toNat
  let indf : ℕ := (⌈interp tb ts (idxSeq n)⌉).toNat
  let pre : List ℚ := if ta = ts.getD ind0 0 then [] else [ta]
  let mid : List ℚ := (ts.drop ind0).take (indf - ind0)
  let jf : ℕ := if indf = 0 then n - 1 else indf - 1
  let post : List ℚ := if tb = ts.getD jf 0 then [] else [tb]
  pre ++ mid ++ post

/-- One Simpson term of scipy's `_basic_simps` on a non-uniform grid: the
contribution of the point triple `(p0, p1, p2)` (each a pair of abscissa and
ordinate), written with the very expressions of the scipy source
(`h0divh1 = h0/h1`, coefficients `2 - 1/h0divh1`, `hsum²/hprod`,
`2 - h0divh1`). -/
def simpTriple (p0 p1 p2 : ℚ × ℚ) : ℚ :=
  let h0 := p1.1 - p0.1
  let h1 := p2.1 - p1.1
  let hsum := h0 + h1
  let hprod := h0 * h1
  let h0divh1 := h0 / h1
  hsum / 6 * (p0.2 * (2 - 1 / h0divh1) + p1.2 * (hsum * hsum / hprod) +
    p2.2 * (2 - h0divh1))

/-- scipy `_basic_simps` over a whole stretch of points: consume overlapping
triples with stride 2 (indices `start, start+2, …` of the slice).  Fewer than
three remaining points contribute nothing (the empty slices of the scipy
code). -/
def simpChain : List (ℚ × ℚ) → ℚ
  | p0 :: p1 :: rest =>
    match rest with
    | p2 :: _ => simpTriple p0 p1 p2 + simpChain rest
    | [] => 0
  | _ => 0

/-- A trapezoid correction term `0.5*dx*(y_left + y_right)` of scipy `simps`. -/
def trapTerm (pa pb : ℚ × ℚ) : ℚ := 1/2 * (pb.1 - pa.1) * (pa.2 + pb.2)

/-- `scipy.integrate.simps(y, x)` with the default `even='avg'` handling
(the scipy version used by the repository): for an odd number of points,
composite Simpson triples over the whole list; for an even number, the average
of (Simpson on all but the last point + trapezoid on the last interval) and
(trapezoid on the first interval + Simpson on all but the first point). -/
def simps (ps : List (ℚ × ℚ)) : ℚ :=
  if ps.length % 2 = 1 then simpChain ps
  else
    match ps with
    | [] => 0
    | pss =>
      let valFirst := trapTerm (pss.getD (pss.length - 2) (0, 0))
        (pss.getD (pss.length - 1) (0, 0))
      let resFirst := simpChain pss.dropLast
      let valLast := trapTerm (pss.getD 0 (0, 0)) (pss.getD 1 (0, 0))
      let resLast := simpChain (pss.drop 1)
      (resFirst + resLast) / 2 + (valFirst + valLast) / 2

/-- Lines 215-218 of `integrate_quads`: evaluate the integrand at every grid
point on the interpolated state (`dq`), transpose, and apply `simps` with
`x = x_interp` to every integrand dimension (`m` is the row length of `dq`,
i.e. the integrand dimension). -/
def simpsonVec (quad : ℚ → List ℚ → List ℚ) (ts : List ℚ) (ys : List (List ℚ))
    (grid : List ℚ) : List ℚ :=
  let dqs := grid.map (fun τ => quad τ (trajY ts ys τ))
  let m := (dqs.headD []).length
  (List.range m).map (fun j => simps (grid.zip (dqs.map (fun r => r.getD j 0))))

/-- `integrate_quads(quadfun, tspan, gamma)` (lines 173-226) for
`tspan = [ta, tb]`.  Bounds are validated first (`domainError`); the grid is
assembled by `quadGrid`; `gamma(x_interp[0])` is queried (an `IndexError` if
the grid is empty, and a `TypeError` if the query returned `None`, which
unpacking into `y0, q0, u0` would raise); the integrand is Simpson-integrated
per dimension; finally the quadrature component `q0` of the point query —
`0` when it is `None` — is added to the result (numpy broadcast). -/
def integrate_quads (quad : ℚ → List ℚ → List ℚ) (ta tb : ℚ) (γ : Trajectory) :
    Except PyErr (List ℚ) :=
  match γ.t with
  | none => .error .typeError
  | some ts =>
    match ts with
    | [] => .error .indexError
    | _ :: _ =>
      if ta < ts.headD 0 then .error .domainError
      else if ts.getLastD 0 < tb then .error .domainError
      else
        match quadGrid ts ta tb with
        | [] => .error .indexError
        | g0 :: grest =>
          match γ.call g0 with
          | .error e => .error e
          | .ok none => .error .typeError
          | .ok (some (_, q0c, _)) =>
            match γ.y with
            | none => .error .attributeError
            | some ys =>
              let qf_m0 := simpsonVec quad ts ys (g0 :: grest)
              let qf := match q0c with
                | none => qf_m0.map (· + 0)
                | some v => List.zipWith (· + ·) qf_m0 v
              .ok qf

/-- The accumulation loop of `reconstruct` (lines 163-167): after `k` loop
iterations `temp_q` holds `k + 1` rows, each new row being the previous row
plus the sub-interval integral over `[t[ii], t[ii+1]]`. -/
def reconRows (quad : ℚ → List ℚ → List ℚ) (γ : Trajectory) (ts : List ℚ)
    (seed : List ℚ) : ℕ → Except PyErr (List (List ℚ))
  | 0 => .ok [seed]
  | k + 1 =>
    match reconRows quad γ ts seed k with
    | .error e => .error e
    | .ok rows =>
      match integrate_quads quad (ts.getD k 0) (ts.getD (k + 1) 0) γ with
      | .error e => .error e
      | .ok qf => .ok (rows ++ [List.zipWith (· + ·) (rows.getLastD []) qf])

/-- `reconstruct(quadfun, gamma)` (lines 141-170).  `q0` is read first
(`gamma.q[0]`, an `IndexError` on an empty `q`; the scalar `0` when `q` is
`None`); then the seed zero-width integral at `gamma.t[0]` is computed
(`gamma.t[0]` raising `TypeError`/`IndexError` for a missing/empty `t`); the
loop accumulates one row per consecutive sample pair; finally `q0` is
broadcast-added to every row and the result is a copy of `gamma` (`copy.copy`)
with only its `q` attribute rebound — `t`, `y`, `u` are shared with the
input, which itself is left untouched. -/
def reconstruct (quad : ℚ → List ℚ → List ℚ) (γ : Trajectory) :
    Except PyErr Trajectory :=
  match γ.q with
  | some [] => .error .indexError
  | _ =>
    let q0v : Option (List ℚ) :=
      match γ.q with
      | some (q0 :: _) => some q0
      | _ => none
    match γ.t with
    | none => .error .typeError
    | some [] => .error .indexError
    | some (t0 :: trest) =>
      match integrate_quads quad t0 t0 γ with
      | .error e => .error e
      | .ok seed =>
        match reconRows quad γ (t0 :: trest) seed ((t0 :: trest).length - 1) with
        | .error e => .error e
        | .ok rows =>
          let addq : List ℚ → List ℚ := fun r =>
            match q0v with
            | none => r.map (· + 0)
            | some v => List.zipWith (· + ·) r v
          .ok { γ with q := some (rows.map addq) }

/-- The smallest index of `ts` whose entry is `≥ τ` (`ts.length` if none is):
the specification-level meaning of the `int(np.ceil(np.interp(...)))` index
lookup of lines 199-200. -/
def firstGE (τ : ℚ) : List ℚ → ℕ
  | [] => 0
  | x :: xs => if τ ≤ x then 0 else firstGE τ xs + 1

/-- Decidable equality of `Except` results, for evaluating the embedded
operations on concrete inputs. -/
def exceptDecEq {ε α : Type} [DecidableEq ε] [DecidableEq α] :
    DecidableEq (Except ε α) := fun a b =>
  match a, b with
  | .ok x, .ok y =>
    if h : x = y then .isTrue (by rw [h]) else .isFalse (fun hc => h (Except.ok.inj hc))
  | .error x, .error y =>
    if h : x = y then .isTrue (by rw [h]) else .isFalse (fun hc => h (Except.error.inj hc))
  | .ok _, .error _ => .isFalse (fun hc => Except.noConfusion hc)
  | .error _, .ok _ => .isFalse (fun hc => Except.noConfusion hc)

instance {ε α : Type} [DecidableEq ε] [DecidableEq α] : DecidableEq (Except ε α) :=
  exceptDecEq

/-! ## Concrete fixtures used by the witness theorems -/

/-- A two-sample trajectory with unit slope. -/
def trajTwo : Trajectory := ⟨some [0, 1], some [[0], [1]], none, none⟩

/-- A one-sample trajectory. -/
def trajOne : Trajectory := ⟨some [0], some [[0]], none, none⟩

/-- A three-sample trajectory. -/
def trajThree : Trajectory := ⟨some [0, 1, 2], some [[0], [1], [2]], none, none⟩

/-- The constant unit integrand. -/
def quadOne : ℚ → List ℚ → List ℚ := fun _ _ => [1]

/-- The cubic integrand `t ↦ [t³]`. -/
def quadCube : ℚ → List ℚ → List ℚ := fun t _ => [t * t * t]

/-! ## C9, C10: point queries on empty and uninitialized trajectories -/

/-- C9: a `Trajectory` with zero samples (`len(t) == 0`) returns `None` for the
whole `(y, q, u)` result of any point query, rather than raising. -/
theorem call_zero_samples (γ : Trajectory) (τ : ℚ) (ht : γ.t = some []) :
    γ.call τ = .ok none := by
  simp [Trajectory.call, ht]

theorem call_zero_samples_w :
    (⟨some [], none, none, none⟩ : Trajectory).call 5 = .ok none :=
  call_zero_samples ⟨some [], none, none, none⟩ 5 rfl

/-- C10: a default-constructed `Trajectory` (no arguments, so `t` is `None`)
has length 0, yet a point query on it raises (`len(None)` is a `TypeError`)
instead of returning `None`; the zero-samples guard applies only when `t` is a
present, empty sequence, for which the query does return `None`. -/
theorem mkEmpty_len_zero_call_raises :
    Trajectory.mkEmpty.len = 0 ∧
    (∀ τ : ℚ, Trajectory.mkEmpty.call τ = .error .typeError) ∧
    (∀ τ : ℚ, (⟨some [], none, none, none⟩ : Trajectory).call τ = .ok none) :=
  ⟨rfl, fun _ => rfl, fun _ => rfl⟩

/-! ## C8: reconstruct returns a fresh trajectory sharing `t`, `y`, `u` -/

/-- C8: whenever `reconstruct` succeeds, the returned trajectory has exactly the
input's `t`, `y` and `u`, and carries a freshly computed (present) `q`.  The
embedding is pure, mirroring the source's `copy.copy(gamma)` followed by a
rebinding of `q` on the copy only: the input trajectory is left untouched. -/
theorem reconstruct_frame (quad : ℚ → List ℚ → List ℚ) (γ γ' : Trajectory)
    (h : reconstruct quad γ = .ok γ') :
    γ'.t = γ.t ∧ γ'.y = γ.y ∧ γ'.u = γ.u ∧ ∃ qs, γ'.q = some qs := by
  obtain ⟨gt, gy, gq, gu⟩ := γ
  unfold reconstruct at h
  rcases gq with _ | qs
  · rcases gt with _ | ts
    · exact absurd h (by simp)
    · rcases ts with _ | ⟨t0, tr⟩
      · exact absurd h (by simp)
      · simp only at h
        rcases hseed : integrate_quads quad t0 t0 ⟨some (t0 :: tr), gy, none, gu⟩ with e | seed <;>
          rw [hseed] at h <;> simp only at h
        · exact absurd h (by simp)
        · rcases hrows : reconRows quad ⟨some (t0 :: tr), gy, none, gu⟩ (t0 :: tr) seed
              ((t0 :: tr).length - 1) with e | rows <;> rw [hrows] at h <;> simp only at h
          · exact absurd h (by simp)
          · obtain rfl := (Except.ok.inj h).symm
            exact ⟨rfl, rfl, rfl, _, rfl⟩
  · rcases qs with _ | ⟨q0, qrest⟩
    · exact absurd h (by simp)
    · rcases gt with _ | ts
      · exact absurd h (by simp)
      · rcases ts with _ | ⟨t0, tr⟩
        · exact absurd h (by simp)
        · simp only at h
          rcases hseed : integrate_quads quad t0 t0 ⟨some (t0 :: tr), gy, some (q0 :: qrest), gu⟩
              with e | seed <;> rw [hseed] at h <;> simp only at h
          · exact absurd h (by simp)
          · rcases hrows : reconRows quad ⟨some (t0 :: tr), gy, some (q0 :: qrest), gu⟩
                (t0 :: tr) seed ((t0 :: tr).length - 1) with e | rows <;> rw [hrows] at h <;>
              simp only at h
            · exact absurd h (by simp)
            · obtain rfl := (Except.ok.inj h).symm
              exact ⟨rfl, rfl, rfl, _, rfl⟩

theorem reconstruct_frame_w :
    reconstruct quadOne trajTwo = .ok ⟨some [0, 1], some [[0], [1]], some [[0], [1]], none⟩ ∧
    ((⟨some [0, 1], some [[0], [1]], some [[0], [1]], none⟩ : Trajectory).t = trajTwo.t ∧
      (⟨some [0, 1], some [[0], [1]], some [[0], [1]], none⟩ : Trajectory).y = trajTwo.y ∧
      (⟨some [0, 1], some [[0], [1]], some [[0], [1]], none⟩ : Trajectory).u = trajTwo.u ∧
      ∃ qs, (⟨some [0, 1], some [[0], [1]], some [[0], [1]], none⟩ : Trajectory).q = some qs) :=
  ⟨by norm_num [reconstruct, reconRows, integrate_quads, quadOne, trajTwo, quadGrid, interp,
      idxSeq, List.range_succ, Trajectory.call, trajY, simpsonVec, simps, simpChain, trapTerm],
    reconstruct_frame quadOne trajTwo _
      (by norm_num [reconstruct, reconRows, integrate_quads, quadOne, trajTwo, quadGrid, interp,
        idxSeq, List.range_succ, Trajectory.call, trajY, simpsonVec, simps, simpChain, trapTerm])⟩

/-! ## C2: bounds enforcement of `integrate_quads` -/

/-- The bounds test of `integrate_quads`: the `domainError` arises exactly for
out-of-bounds spans, and for no other reason. -/
theorem integrate_quads_domainError_iff (quad : ℚ → List ℚ → List ℚ) (γ : Trajectory)
    (ts : List ℚ) (ta tb : ℚ) (ht : γ.t = some ts) (hne : ts ≠ []) :
    integrate_quads quad ta tb γ = .error .domainError ↔
      ta < ts.headD 0 ∨ ts.getLastD 0 < tb := by
  rcases ts with _ | ⟨t0, tr⟩
  · exact absurd rfl hne
  · have hiff : integrate_quads quad ta tb γ = .error .domainError ↔
        ta < (t0 :: tr).headD 0 ∨ (t0 :: tr).getLastD 0 < tb := by
      simp only [integrate_quads, ht]
      by_cases h1 : ta < (t0 :: tr).headD 0
      · rw [if_pos h1]
        exact iff_of_true rfl (Or.inl h1)
      · rw [if_neg h1]
        by_cases h2 : (t0 :: tr).getLastD 0 < tb
        · rw [if_pos h2]
          exact iff_of_true rfl (Or.inr h2)
        · rw [if_neg h2]
          apply iff_of_false
          · rcases hg : quadGrid (t0 :: tr) ta tb with _ | ⟨g0, gr⟩
            · simp
            · simp only [Trajectory.call, ht]
              rcases hy : γ.y with _ | ys
              · simp
              · by_cases hl : ys.length = tr.length + 1
                · simp [hl]
                · simp [hl]
          · exact not_or.mpr ⟨h1, h2⟩
    exact hiff

/-- C2: for a trajectory with at least one sample, `integrate_quads` fails with
`'Time span out of integration bounds.'` exactly when `t_a < gamma.t[0]` or
`t_b > gamma.t[-1]` (endpoints equal to the bounds are accepted), and whenever
that condition holds it never returns a value. -/
theorem integrate_quads_bounds (quad : ℚ → List ℚ → List ℚ) (γ : Trajectory)
    (ts : List ℚ) (ta tb : ℚ) (ht : γ.t = some ts) (hne : ts ≠ []) :
    (integrate_quads quad ta tb γ = .error .domainError ↔
      ta < ts.headD 0 ∨ ts.getLastD 0 < tb) ∧
    ∀ v, (ta < ts.headD 0 ∨ ts.getLastD 0 < tb) → integrate_quads quad ta tb γ ≠ .ok v := by
  have hiff := integrate_quads_domainError_iff quad γ ts ta tb ht hne
  refine ⟨hiff, fun v hv heq => ?_⟩
  rw [hiff.mpr hv] at heq
  exact Except.noConfusion heq

theorem integrate_quads_bounds_w :
    (integrate_quads quadOne (-1) 0 trajTwo = .error .domainError ↔
      (-1 : ℚ) < ([0, 1] : List ℚ).headD 0 ∨ (([0, 1] : List ℚ)).getLastD 0 < 0) ∧
    ∀ v, ((-1 : ℚ) < ([0, 1] : List ℚ).headD 0 ∨ (([0, 1] : List ℚ)).getLastD 0 < 0) →
      integrate_quads quadOne (-1) 0 trajTwo ≠ .ok v :=
  integrate_quads_bounds quadOne trajTwo [0, 1] (-1) 0 rfl (by simp)

/-! ## The index lookup: `int(np.ceil(np.interp(τ, t, arange(n))))` equals the
smallest sample index whose time is `≥ τ` -/

theorem getLastD_cons_cons (x0 x1 : ℚ) (xs : List ℚ) (d : ℚ) :
    (x0 :: x1 :: xs).getLastD d = (x1 :: xs).getLastD d := by
  simp [List.getLastD_cons]

theorem getLastD_eq_getD : ∀ (l : List ℚ), l ≠ [] → l.getLastD 0 = l.getD (l.length - 1) 0
  | [_], _ => rfl
  | x0 :: x1 :: xs, _ => by
    rw [getLastD_cons_cons]
    have hl : (x0 :: x1 :: xs).length - 1 = ((x1 :: xs).length - 1) + 1 := by
      simp
    rw [hl, List.getD_cons_succ]
    exact getLastD_eq_getD (x1 :: xs) (by simp)

theorem firstGE_nil (τ : ℚ) : firstGE τ [] = 0 := rfl

theorem firstGE_cons (τ x : ℚ) (xs : List ℚ) :
    firstGE τ (x :: xs) = if τ ≤ x then 0 else firstGE τ xs + 1 := rfl

theorem firstGE_le_length (τ : ℚ) (ts : List ℚ) : firstGE τ ts ≤ ts.length := by
  induction ts with
  | nil => simp [firstGE]
  | cons x xs ih =>
    simp only [firstGE, List.length_cons]
    split
    · omega
    · omega

theorem firstGE_lt_length (τ : ℚ) (ts : List ℚ) (hne : ts ≠ [])
    (hub : τ ≤ ts.getLastD 0) : firstGE τ ts < ts.length := by
  induction ts with
  | nil => exact absurd rfl hne
  | cons x xs ih =>
    rcases xs with _ | ⟨x1, xs'⟩
    · have hx : τ ≤ x := by simpa using hub
      simp [firstGE, hx]
    · rw [getLastD_cons_cons] at hub
      have hrec := ih (by simp) hub
      rw [firstGE_cons]
      simp only [List.length_cons] at hrec ⊢
      split
      · omega
      · omega

theorem firstGE_ge (τ : ℚ) (ts : List ℚ) (h : firstGE τ ts < ts.length) :
    τ ≤ ts.getD (firstGE τ ts) 0 := by
  induction ts with
  | nil => simp [firstGE] at h
  | cons x xs ih =>
    simp only [firstGE] at h ⊢
    split
    · rename_i hx
      simpa using hx
    · rw [List.getD_cons_succ]
      rename_i hx
      rw [if_neg hx] at h
      exact ih (by simpa using h)

theorem firstGE_lt (τ : ℚ) (ts : List ℚ) (j : ℕ) (hj : j < firstGE τ ts) :
    ts.getD j 0 < τ := by
  induction ts generalizing j with
  | nil => simp [firstGE] at hj
  | cons x xs ih =>
    simp only [firstGE] at hj
    rcases j with _ | j'
    · rw [List.getD_cons_zero]
      by_cases hx : τ ≤ x
      · rw [if_pos hx] at hj
        omega
      · exact not_le.mp hx
    · rw [List.getD_cons_succ]
      by_cases hx : τ ≤ x
      · rw [if_pos hx] at hj
        omega
      · rw [if_neg hx] at hj
        exact ih j' (by omega)

theorem firstGE_mono (ta tb : ℚ) (hab : ta ≤ tb) (ts : List ℚ) :
    firstGE ta ts ≤ firstGE tb ts := by
  induction ts with
  | nil => simp [firstGE]
  | cons x xs ih =>
    simp only [firstGE]
    by_cases hb : tb ≤ x
    · rw [if_pos (le_trans hab hb), if_pos hb]
    · rw [if_neg hb]
      by_cases ha : ta ≤ x
      · rw [if_pos ha]
        omega
      · rw [if_neg ha]
        omega

theorem ceil_interp (τ : ℚ) (ts : List ℚ) : ∀ (k : ℕ), ts.Chain' (· < ·) → ts ≠ [] →
    τ ≤ ts.getLastD 0 →
    ⌈interp τ ts (List.map (fun i : ℕ => (i : ℚ)) (List.range' k ts.length))⌉ =
      (k : ℤ) + (firstGE τ ts : ℤ) := by
  induction ts with
  | nil => intro k _ h; exact absurd rfl h
  | cons x0 xs ih =>
    intro k hc hne hub
    rcases xs with _ | ⟨x1, xs'⟩
    · have hx : τ ≤ x0 := by simpa using hub
      have hfg : firstGE τ [x0] = 0 := by simp [firstGE, hx]
      simp [List.range'_succ, interp, hfg]
    · have hx01 : x0 < x1 := (List.chain'_cons.mp hc).1
      have hctail : (x1 :: xs').Chain' (· < ·) := (List.chain'_cons.mp hc).2
      have hub' : τ ≤ (x1 :: xs').getLastD 0 := by
        rw [getLastD_cons_cons] at hub
        exact hub
      rw [show (x0 :: x1 :: xs').length = xs'.length + 1 + 1 by simp,
        List.range'_succ, List.map_cons]
      by_cases h0 : τ ≤ x0
      · simp only [interp, if_pos h0]
        have hfg : firstGE τ (x0 :: x1 :: xs') = 0 := by simp [firstGE, h0]
        rw [hfg, Int.ceil_natCast]
        omega
      · rw [List.range'_succ, List.map_cons]
        simp only [interp, if_neg h0]
        by_cases h1 : τ ≤ x1
        · rw [if_pos h1]
          have he : (k : ℚ) + (↑(k + 1) - ↑k) * (τ - x0) / (x1 - x0) =
              (τ - x0) / (x1 - x0) + (k : ℕ) := by
            push_cast
            ring
          rw [he, Int.ceil_add_nat]
          have hc1 : ⌈(τ - x0) / (x1 - x0)⌉ = 1 := by
            rw [Int.ceil_eq_iff]
            constructor
            · push_cast
              simpa using div_pos (sub_pos.mpr (not_le.mp h0)) (sub_pos.mpr hx01)
            · push_cast
              exact (div_le_one (sub_pos.mpr hx01)).mpr (sub_le_sub_right h1 x0)
          rw [hc1]
          have hfg : firstGE τ (x0 :: x1 :: xs') = 1 := by
            simp [firstGE, h0, h1]
          rw [hfg]
          omega
        · rw [if_neg h1]
          have hrec := ih k.succ hctail (by simp) hub'
          rw [show (x1 :: xs').length = xs'.length + 1 by simp, List.range'_succ,
            List.map_cons] at hrec
          rw [show k + 1 + 1 = k.succ + 1 by omega]
          rw [show ((k + 1 : ℕ) : ℚ) = ((k.succ : ℕ) : ℚ) by push_cast; ring] at hrec ⊢
          rw [hrec]
          have hfg : firstGE τ (x0 :: x1 :: xs') = firstGE τ (x1 :: xs') + 1 := by
            simp [firstGE, h0]
          rw [hfg]
          push_cast
          ring

theorem ceil_interp_toNat (τ : ℚ) (ts : List ℚ) (hc : ts.Chain' (· < ·)) (hne : ts ≠ [])
    (hub : τ ≤ ts.getLastD 0) :
    (⌈interp τ ts (idxSeq ts.length)⌉).toNat = firstGE τ ts := by
  have h := ceil_interp τ ts 0 hc hne hub
  rw [idxSeq, List.range_eq_range', h]
  omega

/-! ## Structure of the evaluation grid -/

theorem headD_eq_getD (l : List ℚ) (hne : l ≠ []) : l.headD 0 = l.getD 0 0 := by
  cases l
  · exact absurd rfl hne
  · rfl

theorem head?_eq_headD (l : List ℚ) (hne : l ≠ []) : l.head? = some (l.headD 0) := by
  cases l
  · exact absurd rfl hne
  · rfl

theorem getLast?_eq_getLastD (l : List ℚ) (hne : l ≠ []) :
    l.getLast? = some (l.getLastD 0) := by
  induction l with
  | nil => exact absurd rfl hne
  | cons x xs ih =>
    rcases xs with _ | ⟨x1, xs'⟩
    · rfl
    · rw [getLastD_cons_cons]
      rw [show (x :: x1 :: xs').getLast? = (x1 :: xs').getLast? from rfl]
      exact ih (by simp)

theorem headD_append (l1 l2 : List ℚ) (h : l1 ≠ []) :
    (l1 ++ l2).headD 0 = l1.headD 0 := by
  cases l1
  · exact absurd rfl h
  · rfl

theorem sorted_getD_lt (ts : List ℚ) (hc : ts.Chain' (· < ·)) (i j : ℕ) (hij : i < j)
    (hj : j < ts.length) : ts.getD i 0 < ts.getD j 0 := by
  have hp := List.chain'_iff_pairwise.mp hc
  rw [List.getD_eq_getElem ts 0 (lt_trans hij hj), List.getD_eq_getElem ts 0 hj]
  exact List.pairwise_iff_getElem.mp hp i j (lt_trans hij hj) hj hij

theorem sorted_getD_le (ts : List ℚ) (hc : ts.Chain' (· < ·)) (i j : ℕ) (hij : i ≤ j)
    (hj : j < ts.length) : ts.getD i 0 ≤ ts.getD j 0 := by
  rcases Nat.lt_or_ge i j with h | h
  · exact le_of_lt (sorted_getD_lt ts hc i j h hj)
  · have : i = j := le_antisymm hij h
    rw [this]

theorem mem_slice (ts : List ℚ) (i0 k : ℕ) (x : ℚ) (hx : x ∈ (ts.drop i0).take k) :
    ∃ j, j < k ∧ i0 + j < ts.length ∧ x = ts.getD (i0 + j) 0 := by
  rw [List.mem_iff_getElem] at hx
  obtain ⟨j, hj, hxe⟩ := hx
  have hj' : j < k ∧ i0 + j < ts.length := by
    have h1 := hj
    simp only [List.length_take, List.length_drop] at h1
    omega
  refine ⟨j, hj'.1, hj'.2, ?_⟩
  rw [List.getD_eq_getElem ts 0 hj'.2, ← hxe, List.getElem_take, List.getElem_drop]

theorem slice_sorted (ts : List ℚ) (hc : ts.Chain' (· < ·)) (i0 k : ℕ) :
    ((ts.drop i0).take k).Pairwise (· < ·) :=
  List.Pairwise.sublist
    ((List.take_sublist k (ts.drop i0)).trans (List.drop_sublist i0 ts))
    (List.chain'_iff_pairwise.mp hc)

theorem slice_getD_zero (ts : List ℚ) (i0 k : ℕ) (hk : 0 < k) (hi : i0 < ts.length) :
    ((ts.drop i0).take k).getD 0 0 = ts.getD i0 0 := by
  have hlen : 0 < ((ts.drop i0).take k).length := by
    simp only [List.length_take, List.length_drop]
    omega
  rw [List.getD_eq_getElem _ 0 hlen, List.getElem_take, List.getElem_drop,
    List.getD_eq_getElem ts 0 (by omega)]
  simp

/-- The general closed form of the grid: the `np.ceil∘np.interp` indices are
`firstGE` indices whenever both span endpoints are at most the last sample. -/
theorem quadGrid_eq (ts : List ℚ) (ta tb : ℚ) (hc : ts.Chain' (· < ·)) (hne : ts ≠ [])
    (hta : ta ≤ ts.getLastD 0) (htb : tb ≤ ts.getLastD 0) :
    quadGrid ts ta tb =
      (if ta = ts.getD (firstGE ta ts) 0 then [] else [ta]) ++
      ((ts.drop (firstGE ta ts)).take (firstGE tb ts - firstGE ta ts)) ++
      (if tb = ts.getD
          (if firstGE tb ts = 0 then ts.length - 1 else firstGE tb ts - 1) 0
        then [] else [tb]) := by
  simp only [quadGrid]
  rw [ceil_interp_toNat ta ts hc hne hta, ceil_interp_toNat tb ts hc hne htb]

theorem firstGE_right_pos (ts : List ℚ) (ta tb : ℚ) (hne : ts ≠ [])
    (h0a : ts.headD 0 ≤ ta) (hab : ta < tb) (hbl : tb ≤ ts.getLastD 0) :
    1 ≤ firstGE tb ts := by
  by_contra h
  have h0 : firstGE tb ts = 0 := by omega
  have hlt : firstGE tb ts < ts.length := firstGE_lt_length tb ts hne hbl
  have := firstGE_ge tb ts hlt
  rw [h0] at this
  rw [headD_eq_getD ts hne] at h0a
  exact absurd (lt_of_lt_of_le hab this) (not_lt.mpr h0a)

/-- Under `t_a < t_b` the trailing `t_b` is always appended: the sample at
`indf - 1` is strictly below `t_b`. -/
theorem quadGrid_eq_lt (ts : List ℚ) (ta tb : ℚ) (hc : ts.Chain' (· < ·)) (hne : ts ≠ [])
    (h0a : ts.headD 0 ≤ ta) (hab : ta < tb) (hbl : tb ≤ ts.getLastD 0) :
    quadGrid ts ta tb =
      (if ta = ts.getD (firstGE ta ts) 0 then [] else [ta]) ++
      ((ts.drop (firstGE ta ts)).take (firstGE tb ts - firstGE ta ts)) ++ [tb] := by
  have h1 := firstGE_right_pos ts ta tb hne h0a hab hbl
  rw [quadGrid_eq ts ta tb hc hne (le_trans (le_of_lt hab) hbl) hbl]
  rw [if_neg (by omega : ¬ firstGE tb ts = 0)]
  have hlt2 := firstGE_lt tb ts (firstGE tb ts - 1) (by omega)
  have hpost : ¬ tb = ts.getD (firstGE tb ts - 1) 0 := by
    intro he
    rw [← he] at hlt2
    exact lt_irrefl tb hlt2
  rw [if_neg hpost]

/-- For `t_a < t_b` within bounds the grid is strictly increasing, begins
exactly at `t_a`, ends exactly at `t_b`, and in particular is nonempty. -/
theorem quadGrid_lt_props (ts : List ℚ) (ta tb : ℚ) (hc : ts.Chain' (· < ·)) (hne : ts ≠ [])
    (h0a : ts.headD 0 ≤ ta) (hab : ta < tb) (hbl : tb ≤ ts.getLastD 0) :
    (quadGrid ts ta tb).Pairwise (· < ·) ∧
    (quadGrid ts ta tb).headD 0 = ta ∧
    (quadGrid ts ta tb).getLastD 0 = tb ∧
    quadGrid ts ta tb ≠ [] := by
  have hi0n : firstGE ta ts < ts.length :=
    firstGE_lt_length ta ts hne (le_trans (le_of_lt hab) hbl)
  have hi1n : firstGE tb ts < ts.length := firstGE_lt_length tb ts hne hbl
  have hta_le : ta ≤ ts.getD (firstGE ta ts) 0 := firstGE_ge ta ts hi0n
  have htb_le : tb ≤ ts.getD (firstGE tb ts) 0 := firstGE_ge tb ts hi1n
  have hmidmem : ∀ x ∈ (ts.drop (firstGE ta ts)).take (firstGE tb ts - firstGE ta ts),
      ts.getD (firstGE ta ts) 0 ≤ x ∧ x < tb := by
    intro x hx
    obtain ⟨j, hj1, hj2, hj3⟩ := mem_slice ts _ _ x hx
    constructor
    · rw [hj3]
      exact sorted_getD_le ts hc _ _ (Nat.le_add_right _ _) hj2
    · rw [hj3]
      exact firstGE_lt tb ts _ (by omega)
  have hmidsorted := slice_sorted ts hc (firstGE ta ts) (firstGE tb ts - firstGE ta ts)
  have htail_sorted :
      ((ts.drop (firstGE ta ts)).take (firstGE tb ts - firstGE ta ts) ++ [tb]).Pairwise
        (· < ·) := by
    rw [List.pairwise_append]
    refine ⟨hmidsorted, List.pairwise_singleton _ _, ?_⟩
    intro a ha b hb
    rw [List.mem_singleton] at hb
    rw [hb]
    exact (hmidmem a ha).2
  rw [quadGrid_eq_lt ts ta tb hc hne h0a hab hbl]
  by_cases hpre : ta = ts.getD (firstGE ta ts) 0
  · rw [if_pos hpre]
    have hi01 : firstGE ta ts < firstGE tb ts := by
      by_contra hcon
      have h1 : firstGE tb ts ≤ firstGE ta ts := by omega
      have h2 := sorted_getD_le ts hc _ _ h1 hi0n
      rw [← hpre] at h2
      exact absurd (lt_of_lt_of_le hab (le_trans htb_le h2)) (lt_irrefl ta)
    have hmidlen : ((ts.drop (firstGE ta ts)).take (firstGE tb ts - firstGE ta ts)).length ≠ 0 := by
      simp only [List.length_take, List.length_drop]
      omega
    have hmid_ne : (ts.drop (firstGE ta ts)).take (firstGE tb ts - firstGE ta ts) ≠ [] := by
      intro hnil
      rw [hnil] at hmidlen
      exact hmidlen rfl
    refine ⟨by simpa using htail_sorted, ?_, ?_, by simp⟩
    · rw [List.nil_append, headD_append _ _ hmid_ne, headD_eq_getD _ hmid_ne,
        slice_getD_zero ts _ _ (by omega) hi0n]
      exact hpre.symm
    · rw [List.nil_append, List.getLastD_concat]
  · rw [if_neg hpre]
    have hta_lt : ta < ts.getD (firstGE ta ts) 0 := lt_of_le_of_ne hta_le hpre
    refine ⟨?_, by simp, ?_, by simp⟩
    · rw [List.append_assoc, List.singleton_append, List.pairwise_cons]
      refine ⟨?_, htail_sorted⟩
      intro b hb
      rw [List.mem_append] at hb
      rcases hb with hb | hb
      · exact lt_of_lt_of_le hta_lt (hmidmem b hb).1
      · rw [List.mem_singleton] at hb
        rw [hb]
        exact hab
    · rw [List.getLastD_concat]

/-- A zero-width span produces the one-point grid `[t_a]` when `t_a` is a
sample, and the degenerate two-point grid `[t_a, t_a]` otherwise — provided
the trajectory has at least two samples. -/
theorem quadGrid_self (ts : List ℚ) (ta : ℚ) (hc : ts.Chain' (· < ·)) (hne : ts ≠ [])
    (h0a : ts.headD 0 ≤ ta) (hal : ta ≤ ts.getLastD 0) (hn2 : 2 ≤ ts.length) :
    quadGrid ts ta ta = if ta = ts.getD (firstGE ta ts) 0 then [ta] else [ta, ta] := by
  rw [quadGrid_eq ts ta ta hc hne hal hal]
  rw [show firstGE ta ts - firstGE ta ts = 0 by omega, List.take_zero]
  have hi0n : firstGE ta ts < ts.length := firstGE_lt_length ta ts hne hal
  by_cases hi0 : firstGE ta ts = 0
  · have h1 : ta ≤ ts.getD 0 0 := by
      rw [← hi0]
      exact firstGE_ge ta ts hi0n
    have h2 : ts.getD 0 0 ≤ ta := by
      rw [← headD_eq_getD ts hne]
      exact h0a
    have hta_eq : ta = ts.getD 0 0 := le_antisymm h1 h2
    have hpre : ta = ts.getD (firstGE ta ts) 0 := by
      rw [hi0]
      exact hta_eq
    rw [if_pos hpre, if_pos hpre, if_pos hi0]
    have hlast : ta < ts.getD (ts.length - 1) 0 := by
      calc ta = ts.getD 0 0 := hta_eq
        _ < ts.getD (ts.length - 1) 0 := sorted_getD_lt ts hc 0 _ (by omega) (by omega)
    rw [if_neg (by exact fun he => absurd (he ▸ hlast) (lt_irrefl _))]
    rfl
  · rw [if_neg hi0]
    have hprev := firstGE_lt ta ts (firstGE ta ts - 1) (by omega)
    have hpost : ¬ ta = ts.getD (firstGE ta ts - 1) 0 := by
      intro he
      rw [← he] at hprev
      exact lt_irrefl ta hprev
    rw [if_neg hpost]
    by_cases hpre : ta = ts.getD (firstGE ta ts) 0
    · rw [if_pos hpre, if_pos hpre]
      rfl
    · rw [if_neg hpre, if_neg hpre]
      rfl

/-! ## Evaluating `integrate_quads` on its success path -/

/-- When the bounds check passes, the grid is nonempty and the trajectory has
an aligned state array, `integrate_quads` returns the per-dimension Simpson
value of the integrand over the grid plus the (always-`None`, hence zero)
quadrature component of the point query. -/
theorem integrate_quads_eval (quad : ℚ → List ℚ → List ℚ) (γ : Trajectory)
    (ts : List ℚ) (ys : List (List ℚ)) (ta tb g0 : ℚ) (gr : List ℚ)
    (ht : γ.t = some ts) (hy : γ.y = some ys) (hlen : ys.length = ts.length)
    (hne : ts ≠ []) (h1 : ¬ ta < ts.headD 0) (h2 : ¬ ts.getLastD 0 < tb)
    (hg : quadGrid ts ta tb = g0 :: gr) :
    integrate_quads quad ta tb γ =
      .ok ((simpsonVec quad ts ys (g0 :: gr)).map (· + 0)) := by
  rcases ts with _ | ⟨t0, tr⟩
  · exact absurd rfl hne
  · simp only [integrate_quads, ht]
    rw [if_neg h1, if_neg h2, hg]
    simp only [Trajectory.call, ht, hy]
    rw [if_neg (by simp : ¬ (t0 :: tr).length = 0), if_pos hlen]

theorem map_add_zero (l : List ℚ) : l.map (· + 0) = l := by
  simp

theorem simpsonVec_single (quad : ℚ → List ℚ → List ℚ) (ts : List ℚ)
    (ys : List (List ℚ)) (a : ℚ) :
    simpsonVec quad ts ys [a] = List.replicate (quad a (trajY ts ys a)).length 0 := by
  simp [simpsonVec, simps, simpChain, List.map_const']

theorem simpsonVec_pair_same (quad : ℚ → List ℚ → List ℚ) (ts : List ℚ)
    (ys : List (List ℚ)) (a : ℚ) :
    simpsonVec quad ts ys [a, a] = List.replicate (quad a (trajY ts ys a)).length 0 := by
  have htrap : ∀ v w : ℚ, trapTerm (a, v) (a, w) = 0 := by
    intro v w
    simp [trapTerm]
  simp [simpsonVec, simps, simpChain, htrap, List.map_const']

/-- The zero-width integral: for a trajectory with at least two samples and an
in-range `t_a`, `integrate_quads(quad, [t_a, t_a])` returns the zero vector,
one zero per integrand dimension. -/
theorem integrate_quads_self (quad : ℚ → List ℚ → List ℚ) (m : ℕ) (γ : Trajectory)
    (ts : List ℚ) (ys : List (List ℚ)) (ta : ℚ)
    (ht : γ.t = some ts) (hy : γ.y = some ys) (hlen : ys.length = ts.length)
    (hc : ts.Chain' (· < ·)) (hn2 : 2 ≤ ts.length)
    (h0a : ts.headD 0 ≤ ta) (hal : ta ≤ ts.getLastD 0)
    (hq : ∀ t y, (quad t y).length = m) :
    integrate_quads quad ta ta γ = .ok (List.replicate m 0) := by
  have hne : ts ≠ [] := by
    intro h
    rw [h] at hn2
    simp at hn2
  have hg := quadGrid_self ts ta hc hne h0a hal hn2
  by_cases hpre : ta = ts.getD (firstGE ta ts) 0
  · rw [if_pos hpre] at hg
    rw [integrate_quads_eval quad γ ts ys ta ta ta [] ht hy hlen hne (not_lt.mpr h0a)
      (not_lt.mpr hal) hg]
    rw [simpsonVec_single, hq, map_add_zero]
  · rw [if_neg hpre] at hg
    rw [integrate_quads_eval quad γ ts ys ta ta ta [ta] ht hy hlen hne (not_lt.mpr h0a)
      (not_lt.mpr hal) hg]
    rw [simpsonVec_pair_same, hq, map_add_zero]

/-! ## C6: zero-width intervals -/

/-- C6 (amended: the trajectory must have at least two samples — with exactly
one sample the call raises `IndexError` instead): for every in-range `t_a`,
`integrate_quads(quad, [t_a, t_a], gamma)` returns the zero vector, one zero
per integrand dimension. -/
theorem integrate_quads_zero_width (quad : ℚ → List ℚ → List ℚ) (m : ℕ)
    (γ : Trajectory) (ts : List ℚ) (ys : List (List ℚ)) (ta : ℚ)
    (ht : γ.t = some ts) (hy : γ.y = some ys) (hlen : ys.length = ts.length)
    (hc : ts.Chain' (· < ·)) (hn2 : 2 ≤ ts.length)
    (h0a : ts.headD 0 ≤ ta) (hal : ta ≤ ts.getLastD 0)
    (hq : ∀ t y, (quad t y).length = m) :
    integrate_quads quad ta ta γ = .ok (List.replicate m 0) :=
  integrate_quads_self quad m γ ts ys ta ht hy hlen hc hn2 h0a hal hq

/-- C6 counterexample: on a one-sample trajectory the grid is empty and the
zero-width call raises `IndexError` (`x_interp[0]`) instead of returning the
zero vector, so the claim fails as stated for "every trajectory". -/
theorem integrate_quads_zero_width_cex :
    integrate_quads quadOne 0 0 trajOne = .error .indexError := by
  norm_num [integrate_quads, trajOne, quadOne, quadGrid, idxSeq, interp,
    List.range_succ, Trajectory.call, trajY, simpsonVec, simps, simpChain, trapTerm]

theorem integrate_quads_zero_width_w :
    integrate_quads quadOne (1/2) (1/2) trajTwo = .ok (List.replicate 1 0) :=
  integrate_quads_zero_width quadOne 1 trajTwo [0, 1] [[0], [1]] (1/2) rfl rfl rfl
    (by norm_num [List.chain'_cons]) (by norm_num) (by norm_num)
    (by norm_num [List.getLastD_cons]) (fun _ _ => rfl)

/-! ## C3: structure of the evaluation grid -/

/-- C3 (amended to strict spans `t_a < t_b`: for a zero-width span at a
non-sample point the assembled grid is `[t_a, t_a]`, which has a duplicate):
for `t_a < t_b` in bounds, `i0`/`i1` as computed by the ceil-of-interpolation
lookup are the smallest sample indices with time `≥ t_a` (resp. `≥ t_b`), and
the grid is `t_a` (only if not itself the sample at `i0`), the samples at
indices `[i0, i1)`, and `t_b` (only if not equal to the sample at `i1 - 1`);
it has no duplicates and its first and last entries are exactly `t_a`, `t_b`. -/
theorem quadGrid_claim (ts : List ℚ) (ta tb : ℚ) (hc : ts.Chain' (· < ·)) (hne : ts ≠ [])
    (h0a : ts.headD 0 ≤ ta) (hab : ta < tb) (hbl : tb ≤ ts.getLastD 0) :
    (∀ j < firstGE ta ts, ts.getD j 0 < ta) ∧ ta ≤ ts.getD (firstGE ta ts) 0 ∧
    (∀ j < firstGE tb ts, ts.getD j 0 < tb) ∧ tb ≤ ts.getD (firstGE tb ts) 0 ∧
    quadGrid ts ta tb =
      (if ta = ts.getD (firstGE ta ts) 0 then [] else [ta]) ++
      ((ts.drop (firstGE ta ts)).take (firstGE tb ts - firstGE ta ts)) ++
      (if tb = ts.getD (firstGE tb ts - 1) 0 then [] else [tb]) ∧
    (quadGrid ts ta tb).Nodup ∧
    (quadGrid ts ta tb).head? = some ta ∧
    (quadGrid ts ta tb).getLast? = some tb := by
  obtain ⟨hs, hh, hl, hne'⟩ := quadGrid_lt_props ts ta tb hc hne h0a hab hbl
  have hi0n := firstGE_lt_length ta ts hne (le_trans (le_of_lt hab) hbl)
  have hi1n := firstGE_lt_length tb ts hne hbl
  have h1 := firstGE_right_pos ts ta tb hne h0a hab hbl
  have hlt2 := firstGE_lt tb ts (firstGE tb ts - 1) (by omega)
  have hpost : ¬ tb = ts.getD (firstGE tb ts - 1) 0 := by
    intro he
    rw [← he] at hlt2
    exact lt_irrefl tb hlt2
  refine ⟨fun j hj => firstGE_lt ta ts j hj, firstGE_ge ta ts hi0n,
    fun j hj => firstGE_lt tb ts j hj, firstGE_ge tb ts hi1n, ?_, ?_, ?_, ?_⟩
  · rw [quadGrid_eq_lt ts ta tb hc hne h0a hab hbl, if_neg hpost]
  · exact List.Pairwise.imp (fun h => ne_of_lt h) hs
  · rw [head?_eq_headD _ hne', hh]
  · rw [getLast?_eq_getLastD _ hne', hl]

/-- C3 counterexample: for the in-bounds zero-width span `[1, 1]` over the
strictly increasing samples `[0, 2]` the assembled grid is `[1, 1]`, which
does contain a duplicate point. -/
theorem quadGrid_claim_cex :
    quadGrid [0, 2] 1 1 = [1, 1] ∧ ¬ (quadGrid [0, 2] 1 1).Nodup := by
  have hg : quadGrid [0, 2] 1 1 = [1, 1] := by
    rw [quadGrid_eq [0, 2] 1 1 (by norm_num [List.chain'_cons]) (by simp)
      (by norm_num [List.getLastD_cons]) (by norm_num [List.getLastD_cons])]
    norm_num [firstGE_cons, firstGE_nil]
  rw [hg]
  norm_num

/-! ## C4: the offset added to the Simpson value -/

/-- C4: on its success path `integrate_quads` returns the per-dimension Simpson
integral over the grid plus the offset queried as the quadrature component of
the trajectory's point query at the first grid point; that component is always
`None` in `Trajectory.__call__`, so the offset is treated as zero and the
returned value is the Simpson integral plus zero in every dimension. -/
theorem integrate_quads_offset (quad : ℚ → List ℚ → List ℚ) (γ : Trajectory)
    (ts : List ℚ) (ys : List (List ℚ)) (ta tb g0 : ℚ) (gr : List ℚ)
    (ht : γ.t = some ts) (hy : γ.y = some ys) (hlen : ys.length = ts.length)
    (hne : ts ≠ []) (h1 : ¬ ta < ts.headD 0) (h2 : ¬ ts.getLastD 0 < tb)
    (hg : quadGrid ts ta tb = g0 :: gr) :
    γ.call g0 = .ok (some (trajY ts ys g0, none, none)) ∧
    integrate_quads quad ta tb γ =
      .ok ((simpsonVec quad ts ys (g0 :: gr)).map (· + 0)) := by
  constructor
  · rcases ts with _ | ⟨t0, tr⟩
    · exact absurd rfl hne
    · simp only [Trajectory.call, ht, hy]
      rw [if_neg (by simp : ¬ (t0 :: tr).length = 0), if_pos hlen]
  · exact integrate_quads_eval quad γ ts ys ta tb g0 gr ht hy hlen hne h1 h2 hg

theorem integrate_quads_offset_w :
    trajTwo.call 0 = .ok (some (trajY [0, 1] [[0], [1]] 0, none, none)) ∧
    integrate_quads quadOne 0 1 trajTwo =
      .ok ((simpsonVec quadOne [0, 1] [[0], [1]] [0, 1]).map (· + 0)) :=
  integrate_quads_offset quadOne trajTwo [0, 1] [[0], [1]] 0 1 0 [1] rfl rfl rfl
    (by simp) (by norm_num) (by norm_num [List.getLastD_cons])
    (by
      rw [quadGrid_eq [0, 1] 0 1 (by norm_num [List.chain'_cons]) (by simp)
        (by norm_num [List.getLastD_cons]) (by norm_num [List.getLastD_cons])]
      norm_num [firstGE_cons, firstGE_nil])

/-! ## C5: reconstruct only uses in-bounds spans -/

theorem reconRows_no_dom (quad : ℚ → List ℚ → List ℚ) (γ : Trajectory) (ts : List ℚ)
    (seed : List ℚ) (ht : γ.t = some ts) (hne : ts ≠ []) (hc : ts.Chain' (· < ·)) :
    ∀ k, k + 1 ≤ ts.length → reconRows quad γ ts seed k ≠ .error .domainError := by
  intro k
  induction k with
  | zero =>
    intro _ h
    exact Except.noConfusion h
  | succ k ih =>
    intro hk
    simp only [reconRows]
    cases hprev : reconRows quad γ ts seed k with
    | error e =>
      intro h
      have he : e = .domainError := Except.error.inj h
      exact ih (by omega) (by rw [hprev, he])
    | ok rows =>
      cases hiq : integrate_quads quad (ts.getD k 0) (ts.getD (k + 1) 0) γ with
      | error e =>
        intro h
        have he : e = .domainError := Except.error.inj h
        have hinb : ¬ (ts.getD k 0 < ts.headD 0 ∨ ts.getLastD 0 < ts.getD (k + 1) 0) := by
          rw [headD_eq_getD ts hne, getLastD_eq_getD ts hne]
          push_neg
          constructor
          · exact sorted_getD_le ts hc 0 k (by omega) (by omega)
          · exact sorted_getD_le ts hc (k + 1) (ts.length - 1) (by omega) (by omega)
        have hne_dom := fun hv =>
          hinb ((integrate_quads_domainError_iff quad γ ts (ts.getD k 0) (ts.getD (k + 1) 0)
            ht hne).mp hv)
        exact hne_dom (by rw [hiq, he])
      | ok qf =>
        intro h
        exact Except.noConfusion h

/-- C5: during `reconstruct` every span handed to `integrate_quads` — the seed
span `[t[0], t[0]]` and each consecutive pair `[t[i], t[i+1]]` — lies within
`[t[0], t[-1]]`, so neither those calls nor `reconstruct` itself can produce
the `'Time span out of integration bounds.'` error. -/
theorem reconstruct_no_domainError (quad : ℚ → List ℚ → List ℚ) (γ : Trajectory)
    (ts : List ℚ) (ht : γ.t = some ts) (hne : ts ≠ []) (hc : ts.Chain' (· < ·)) :
    integrate_quads quad (ts.headD 0) (ts.headD 0) γ ≠ .error .domainError ∧
    (∀ i, i + 1 < ts.length →
      integrate_quads quad (ts.getD i 0) (ts.getD (i + 1) 0) γ ≠ .error .domainError) ∧
    reconstruct quad γ ≠ .error .domainError := by
  have hlast : ts.headD 0 ≤ ts.getLastD 0 := by
    rw [headD_eq_getD ts hne, getLastD_eq_getD ts hne]
    exact sorted_getD_le ts hc 0 (ts.length - 1) (by omega)
      (by
        have : ts.length ≠ 0 := fun h => hne (List.length_eq_zero.mp h)
        omega)
  have hseed : integrate_quads quad (ts.headD 0) (ts.headD 0) γ ≠ .error .domainError := by
    intro hv
    rcases (integrate_quads_domainError_iff quad γ ts _ _ ht hne).mp hv with h | h
    · exact absurd h (lt_irrefl _)
    · exact absurd h (not_lt.mpr hlast)
  have hlen0 : ts.length ≠ 0 := fun h => hne (List.length_eq_zero.mp h)
  refine ⟨hseed, ?_, ?_⟩
  · intro i hi hv
    have hinb : ¬ (ts.getD i 0 < ts.headD 0 ∨ ts.getLastD 0 < ts.getD (i + 1) 0) := by
      rw [headD_eq_getD ts hne, getLastD_eq_getD ts hne]
      push_neg
      exact ⟨sorted_getD_le ts hc 0 i (by omega) (by omega),
        sorted_getD_le ts hc (i + 1) (ts.length - 1) (by omega) (by omega)⟩
    exact hinb ((integrate_quads_domainError_iff quad γ ts _ _ ht hne).mp hv)
  · obtain ⟨gt, gy, gq, gu⟩ := γ
    simp only at ht
    subst ht
    unfold reconstruct
    rcases gq with _ | qs
    · rcases ts with _ | ⟨t0, tr⟩
      · exact absurd rfl hne
      · simp only
        intro h
        rcases hseed' : integrate_quads quad t0 t0 ⟨some (t0 :: tr), gy, none, gu⟩
          with e | seed <;> rw [hseed'] at h <;> simp only at h
        · have he : e = .domainError := Except.error.inj h
          exact hseed (by rw [show (t0 :: tr).headD 0 = t0 from rfl, hseed', he])
        · rcases hrows : reconRows quad ⟨some (t0 :: tr), gy, none, gu⟩ (t0 :: tr) seed
            ((t0 :: tr).length - 1) with e | rows <;> rw [hrows] at h <;> simp only at h
          · have he : e = .domainError := Except.error.inj h
            exact reconRows_no_dom quad _ (t0 :: tr) seed rfl hne hc
              ((t0 :: tr).length - 1) (by simp) (by rw [hrows, he])
          · exact Except.noConfusion h
    · rcases qs with _ | ⟨q0, qrest⟩
      · intro h
        exact absurd (Except.error.inj h) (by simp)
      · rcases ts with _ | ⟨t0, tr⟩
        · exact absurd rfl hne
        · simp only
          intro h
          rcases hseed' : integrate_quads quad t0 t0
              ⟨some (t0 :: tr), gy, some (q0 :: qrest), gu⟩
            with e | seed <;> rw [hseed'] at h <;> simp only at h
          · have he : e = .domainError := Except.error.inj h
            exact hseed (by rw [show (t0 :: tr).headD 0 = t0 from rfl, hseed', he])
          · rcases hrows : reconRows quad ⟨some (t0 :: tr), gy, some (q0 :: qrest), gu⟩
              (t0 :: tr) seed ((t0 :: tr).length - 1) with e | rows <;> rw [hrows] at h <;>
              simp only at h
            · have he : e = .domainError := Except.error.inj h
              exact reconRows_no_dom quad _ (t0 :: tr) seed rfl hne hc
                ((t0 :: tr).length - 1) (by simp) (by rw [hrows, he])
            · exact Except.noConfusion h

theorem reconstruct_no_domainError_w :
    integrate_quads quadOne (([0, 1] : List ℚ).headD 0) (([0, 1] : List ℚ).headD 0) trajTwo ≠
      .error .domainError ∧
    (∀ i, i + 1 < ([0, 1] : List ℚ).length →
      integrate_quads quadOne (([0, 1] : List ℚ).getD i 0) (([0, 1] : List ℚ).getD (i + 1) 0)
        trajTwo ≠ .error .domainError) ∧
    reconstruct quadOne trajTwo ≠ .error .domainError :=
  reconstruct_no_domainError quadOne trajTwo [0, 1] rfl (by simp)
    (by norm_num [List.chain'_cons])

theorem quadGrid_claim_w :
    (∀ j < firstGE 0 [0, 1], ([0, 1] : List ℚ).getD j 0 < 0) ∧
      (0 : ℚ) ≤ ([0, 1] : List ℚ).getD (firstGE 0 [0, 1]) 0 ∧
    (∀ j < firstGE 1 [0, 1], ([0, 1] : List ℚ).getD j 0 < 1) ∧
      (1 : ℚ) ≤ ([0, 1] : List ℚ).getD (firstGE 1 [0, 1]) 0 ∧
    quadGrid [0, 1] 0 1 =
      (if (0 : ℚ) = ([0, 1] : List ℚ).getD (firstGE 0 [0, 1]) 0 then [] else [0]) ++
      ((([0, 1] : List ℚ).drop (firstGE 0 [0, 1])).take (firstGE 1 [0, 1] - firstGE 0 [0, 1])) ++
      (if (1 : ℚ) = ([0, 1] : List ℚ).getD (firstGE 1 [0, 1] - 1) 0 then [] else [1]) ∧
    (quadGrid [0, 1] 0 1).Nodup ∧
    (quadGrid [0, 1] 0 1).head? = some 0 ∧
    (quadGrid [0, 1] 0 1).getLast? = some 1 :=
  quadGrid_claim [0, 1] 0 1 (by norm_num [List.chain'_cons]) (by simp) (by norm_num)
    (by norm_num) (by norm_num [List.getLastD_cons])

/-! ## C1: the cumulative recurrence of `reconstruct` -/

theorem getLastD_eq_getD_gen {α : Type} :
    ∀ (l : List α) (d : α), l ≠ [] → l.getLastD d = l.getD (l.length - 1) d
  | [_], _, _ => rfl
  | x0 :: x1 :: xs, d, _ => by
    rw [List.getLastD_cons, getLastD_eq_getD_gen (x1 :: xs) x0 (by simp)]
    rw [show (x0 :: x1 :: xs).length - 1 = ((x1 :: xs).length - 1) + 1 by simp,
      List.getD_cons_succ]
    rw [List.getD_eq_getElem _ _ (by simp), List.getD_eq_getElem _ _ (by simp)]

theorem simpsonVec_length (quad : ℚ → List ℚ → List ℚ) (ts : List ℚ)
    (ys : List (List ℚ)) (g0 : ℚ) (gr : List ℚ) :
    (simpsonVec quad ts ys (g0 :: gr)).length = (quad g0 (trajY ts ys g0)).length := by
  simp [simpsonVec]

theorem getD_map_lt {α β : Type} (f : α → β) (l : List α) (i : ℕ) (d : α) (d' : β)
    (h : i < l.length) : (l.map f).getD i d' = f (l.getD i d) := by
  rw [List.getD_eq_getElem _ _ (by simpa using h), List.getElem_map,
    List.getD_eq_getElem _ _ h]

theorem zipWith_replicate_zero_add : ∀ v : List ℚ,
    List.zipWith (· + ·) (List.replicate v.length 0) v = v
  | [] => rfl
  | x :: xs => by
    simp only [List.length_cons, List.replicate_succ, List.zipWith_cons_cons, zero_add]
    rw [zipWith_replicate_zero_add xs]

theorem zipWith_add_right_comm : ∀ a b c : List ℚ,
    List.zipWith (· + ·) (List.zipWith (· + ·) a b) c =
      List.zipWith (· + ·) (List.zipWith (· + ·) a c) b
  | [], _, _ => by simp
  | _ :: _, [], [] => by simp
  | _ :: _, [], _ :: _ => by simp
  | _ :: _, _ :: _, [] => by simp
  | x :: xs, b0 :: bs, c0 :: cs => by
    simp only [List.zipWith_cons_cons]
    rw [zipWith_add_right_comm xs bs cs, add_right_comm]

theorem map_map_add_zero : ∀ rows : List (List ℚ),
    rows.map (fun r => r.map (· + 0)) = rows
  | [] => rfl
  | r :: rs => by
    simp [map_add_zero]

/-- Every consecutive-pair span of a strictly increasing trajectory yields a
successful sub-interval integral of the integrand's dimension. -/
theorem integrate_quads_consecutive_ok (quad : ℚ → List ℚ → List ℚ) (m : ℕ)
    (γ : Trajectory) (ts : List ℚ) (ys : List (List ℚ)) (i : ℕ)
    (ht : γ.t = some ts) (hy : γ.y = some ys) (hlen : ys.length = ts.length)
    (hc : ts.Chain' (· < ·)) (hi : i + 1 < ts.length)
    (hq : ∀ t y, (quad t y).length = m) :
    ∃ w, integrate_quads quad (ts.getD i 0) (ts.getD (i + 1) 0) γ = .ok w ∧
      w.length = m := by
  have hne : ts ≠ [] := by
    intro h
    rw [h] at hi
    simp at hi
  have hab : ts.getD i 0 < ts.getD (i + 1) 0 := sorted_getD_lt ts hc i (i + 1) (by omega) hi
  have h0a : ts.headD 0 ≤ ts.getD i 0 := by
    rw [headD_eq_getD ts hne]
    exact sorted_getD_le ts hc 0 i (by omega) (by omega)
  have hbl : ts.getD (i + 1) 0 ≤ ts.getLastD 0 := by
    rw [getLastD_eq_getD ts hne]
    exact sorted_getD_le ts hc (i + 1) (ts.length - 1) (by omega) (by omega)
  obtain ⟨hs, hh, hl, hgne⟩ := quadGrid_lt_props ts _ _ hc hne h0a hab hbl
  rcases hg : quadGrid ts (ts.getD i 0) (ts.getD (i + 1) 0) with _ | ⟨g0, gr⟩
  · exact absurd hg hgne
  · refine ⟨_, integrate_quads_eval quad γ ts ys _ _ g0 gr ht hy hlen hne
      (not_lt.mpr h0a) (not_lt.mpr hbl) hg, ?_⟩
    rw [List.length_map, simpsonVec_length, hq]

/-- Invariant of the accumulation loop: after `k` iterations there are `k + 1`
rows, each of the integrand's dimension, the first row is the seed, and each
successive row is the previous row plus the consecutive-pair integral. -/
theorem reconRows_spec (quad : ℚ → List ℚ → List ℚ) (m : ℕ) (γ : Trajectory)
    (ts : List ℚ) (ys : List (List ℚ)) (seed : List ℚ)
    (ht : γ.t = some ts) (hy : γ.y = some ys) (hlen : ys.length = ts.length)
    (hc : ts.Chain' (· < ·)) (hq : ∀ t y, (quad t y).length = m)
    (hseedlen : seed.length = m) :
    ∀ k, k + 1 ≤ ts.length →
    ∃ rows, reconRows quad γ ts seed k = .ok rows ∧
      rows.length = k + 1 ∧ (∀ i, i ≤ k → (rows.getD i []).length = m) ∧
      rows.getD 0 [] = seed ∧
      (∀ i, i < k →
        ∃ w, integrate_quads quad (ts.getD i 0) (ts.getD (i + 1) 0) γ = .ok w ∧
          rows.getD (i + 1) [] = List.zipWith (· + ·) (rows.getD i []) w) := by
  intro k
  induction k with
  | zero =>
    intro _
    refine ⟨[seed], rfl, rfl, ?_, rfl, ?_⟩
    · intro i hi
      obtain rfl : i = 0 := by omega
      exact hseedlen
    · intro i hi
      omega
  | succ k ih =>
    intro hk
    obtain ⟨rows, hrows, hrl, hrm, hr0, hrrec⟩ := ih (by omega)
    obtain ⟨w, hw, hwlen⟩ :=
      integrate_quads_consecutive_ok quad m γ ts ys k ht hy hlen hc (by omega) hq
    have hrowsne : rows ≠ [] := by
      intro h
      rw [h] at hrl
      simp at hrl
    have hlast_eq : rows.getLastD [] = rows.getD k [] := by
      rw [getLastD_eq_getD_gen rows [] hrowsne, hrl, Nat.add_sub_cancel]
    refine ⟨rows ++ [List.zipWith (· + ·) (rows.getLastD []) w], ?_, ?_, ?_, ?_, ?_⟩
    · simp only [reconRows, hrows, hw]
    · simp [hrl]
    · intro i hi
      rcases Nat.lt_or_ge i (k + 1) with hik | hik
      · rw [List.getD_append _ _ _ _ (by omega)]
        exact hrm i (by omega)
      · obtain rfl : i = k + 1 := by omega
        rw [List.getD_append_right _ _ _ _ (by omega : rows.length ≤ k + 1),
          show k + 1 - rows.length = 0 by omega]
        simp only [List.getD_cons_zero]
        rw [List.length_zipWith, hlast_eq, hrm k (by omega), hwlen]
        omega
    · rw [List.getD_append _ _ _ _ (by omega)]
      exact hr0
    · intro i hi
      rcases Nat.lt_or_ge i k with hik | hik
      · obtain ⟨w', hw', hrec'⟩ := hrrec i hik
        refine ⟨w', hw', ?_⟩
        rw [List.getD_append _ _ _ _ (by omega), List.getD_append _ _ _ _ (by omega)]
        exact hrec'
      · obtain rfl : i = k := by omega
        refine ⟨w, hw, ?_⟩
        rw [List.getD_append_right _ _ _ _ (by omega : rows.length ≤ i + 1),
          show i + 1 - rows.length = 0 by omega,
          List.getD_append _ _ _ _ (by omega)]
        simp only [List.getD_cons_zero]
        rw [hlast_eq]

/-- C1 (amended: the trajectory must have `n ≥ 2` samples — with exactly one
sample the seed zero-width integral raises `IndexError` and `reconstruct`
returns no trajectory): `reconstruct` returns a trajectory whose quadrature
sequence `q` has length `n`, satisfies `q[0] = q0` (`gamma.q[0]` when `gamma.q`
is set, else the zero vector), and
`q[i+1] = q[i] + integrate_quads(quad, [t[i], t[i+1]], gamma)` for every
`i ∈ 0 .. n-2`. -/
theorem reconstruct_claim (quad : ℚ → List ℚ → List ℚ) (m : ℕ) (γ : Trajectory)
    (ts : List ℚ) (ys : List (List ℚ))
    (ht : γ.t = some ts) (hy : γ.y = some ys) (hlen : ys.length = ts.length)
    (hc : ts.Chain' (· < ·)) (hn2 : 2 ≤ ts.length)
    (hq : ∀ t y, (quad t y).length = m)
    (hq0 : γ.q = none ∨ ∃ q0 qrest, γ.q = some (q0 :: qrest) ∧ q0.length = m) :
    ∃ qs : List (List ℚ),
      reconstruct quad γ = .ok { γ with q := some qs } ∧
      qs.length = ts.length ∧
      qs.getD 0 [] = (match γ.q with
        | some (q0 :: _) => q0
        | _ => List.replicate m 0) ∧
      (∀ i, i + 1 < ts.length →
        ∃ w, integrate_quads quad (ts.getD i 0) (ts.getD (i + 1) 0) γ = .ok w ∧
          qs.getD (i + 1) [] = List.zipWith (· + ·) (qs.getD i []) w) := by
  have hne : ts ≠ [] := by
    intro h
    rw [h] at hn2
    simp at hn2
  have hlast : ts.headD 0 ≤ ts.getLastD 0 := by
    rw [headD_eq_getD ts hne, getLastD_eq_getD ts hne]
    exact sorted_getD_le ts hc 0 (ts.length - 1) (by omega)
      (by
        have : ts.length ≠ 0 := fun h => hne (List.length_eq_zero.mp h)
        omega)
  obtain ⟨gt, gy', gq, gu⟩ := γ
  simp only at ht hy
  subst ht
  subst hy
  rcases ts with _ | ⟨t0, tr⟩
  · exact absurd rfl hne
  · have hseed : integrate_quads quad t0 t0 ⟨some (t0 :: tr), some ys, gq, gu⟩ =
        .ok (List.replicate m 0) :=
      integrate_quads_self quad m ⟨some (t0 :: tr), some ys, gq, gu⟩ (t0 :: tr) ys t0
        rfl rfl hlen hc hn2 (le_refl _) hlast hq
    obtain ⟨rows, hrows, hrl, hrm, hr0, hrrec⟩ :=
      reconRows_spec quad m ⟨some (t0 :: tr), some ys, gq, gu⟩ (t0 :: tr) ys
        (List.replicate m 0) rfl rfl hlen hc hq (by simp) ((t0 :: tr).length - 1) (by simp)
    rcases hq0 with hq0 | ⟨q0, qrest, hgq, hq0len⟩
    · simp only at hq0
      subst hq0
      refine ⟨rows, ?_, ?_, ?_, ?_⟩
      · simp only [reconstruct, hseed, hrows, map_map_add_zero]
      · rw [hrl]
        simp
      · exact hr0
      · intro i hi
        exact hrrec i (by simpa using hi)
    · simp only at hgq
      subst hgq
      have hrlen' : rows.length = (t0 :: tr).length := by
        rw [hrl]
        simp
      refine ⟨rows.map (fun r => List.zipWith (· + ·) r q0), ?_, ?_, ?_, ?_⟩
      · simp only [reconstruct, hseed, hrows]
      · rw [List.length_map]
        exact hrlen'
      · rw [getD_map_lt _ rows 0 [] [] (by omega), hr0, ← hq0len,
          zipWith_replicate_zero_add]
      · intro i hi
        obtain ⟨w, hw, hrec⟩ := hrrec i (by simpa using hi)
        refine ⟨w, hw, ?_⟩
        rw [getD_map_lt _ rows (i + 1) [] [] (by omega), getD_map_lt _ rows i [] [] (by omega),
          hrec, zipWith_add_right_comm]

/-- C1 counterexample: on a one-sample trajectory (`n = 1`, which the claim
admits) `reconstruct` raises `IndexError` out of the seed zero-width integral
instead of returning a trajectory. -/
theorem reconstruct_claim_cex :
    reconstruct quadOne trajOne = .error .indexError := by
  norm_num [reconstruct, reconRows, integrate_quads, trajOne, quadOne, quadGrid, idxSeq,
    interp, List.range_succ, Trajectory.call, trajY, simpsonVec, simps, simpChain, trapTerm]

theorem reconstruct_claim_w :
    ∃ qs : List (List ℚ),
      reconstruct quadOne trajTwo = .ok { trajTwo with q := some qs } ∧
      qs.length = ([0, 1] : List ℚ).length ∧
      qs.getD 0 [] = (match trajTwo.q with
        | some (q0 :: _) => q0
        | _ => List.replicate 1 0) ∧
      (∀ i, i + 1 < ([0, 1] : List ℚ).length →
        ∃ w, integrate_quads quadOne (([0, 1] : List ℚ).getD i 0)
            (([0, 1] : List ℚ).getD (i + 1) 0) trajTwo = .ok w ∧
          qs.getD (i + 1) [] = List.zipWith (· + ·) (qs.getD i []) w) :=
  reconstruct_claim quadOne 1 trajTwo [0, 1] [[0], [1]] rfl rfl rfl
    (by norm_num [List.chain'_cons]) (by norm_num) (fun _ _ => rfl) (Or.inl rfl)

/-! ## C7: additivity over adjacent spans -/

theorem simpChain_cons_cons_cons (p0 p1 p2 : ℚ × ℚ) (rest : List (ℚ × ℚ)) :
    simpChain (p0 :: p1 :: p2 :: rest) = simpTriple p0 p1 p2 + simpChain (p2 :: rest) := rfl

theorem trapTerm_const (c a b : ℚ) : trapTerm (a, c) (b, c) = c * (b - a) := by
  simp only [trapTerm]
  ring

theorem simpTriple_const (c x0 x1 x2 : ℚ) (h01 : x0 < x1) (h12 : x1 < x2) :
    simpTriple (x0, c) (x1, c) (x2, c) = c * (x2 - x0) := by
  have h0 : x1 - x0 ≠ 0 := sub_ne_zero.mpr (ne_of_gt h01)
  have h1 : x2 - x1 ≠ 0 := sub_ne_zero.mpr (ne_of_gt h12)
  simp only [simpTriple]
  field_simp
  ring

/-- Composite Simpson triples integrate a constant exactly over any strictly
increasing odd-length grid. -/
theorem simpChain_const (c : ℚ) : ∀ grid : List ℚ, grid.Chain' (· < ·) →
    grid.length % 2 = 1 →
    simpChain (grid.map (fun x => (x, c))) = c * (grid.getLastD 0 - grid.headD 0)
  | [], _, hp => by simp at hp
  | [x], _, _ => by
    simp [simpChain]
  | [_, _], _, hp => by
    simp at hp
  | x0 :: x1 :: x2 :: rest, hcn, hp => by
    have h01 : x0 < x1 := (List.chain'_cons.mp hcn).1
    have hctail1 := (List.chain'_cons.mp hcn).2
    have h12 : x1 < x2 := (List.chain'_cons.mp hctail1).1
    have hctail2 := (List.chain'_cons.mp hctail1).2
    have hIH := simpChain_const c (x2 :: rest) hctail2
      (by
        simp only [List.length_cons] at hp ⊢
        omega)
    simp only [List.map_cons] at hIH ⊢
    rw [simpChain_cons_cons_cons, hIH, simpTriple_const c x0 x1 x2 h01 h12,
      getLastD_cons_cons, getLastD_cons_cons]
    simp only [List.headD_cons]
    ring

/-- The even-point branch of `simps`, spelled out. -/
theorem simps_eq_even (p0 p1 : ℚ × ℚ) (ps : List (ℚ × ℚ))
    (hp : ¬ ((p0 :: p1 :: ps).length % 2 = 1)) :
    simps (p0 :: p1 :: ps) =
      (simpChain ((p0 :: p1 :: ps).dropLast) + simpChain (p1 :: ps)) / 2 +
      (trapTerm ((p0 :: p1 :: ps).getD ((p0 :: p1 :: ps).length - 2) (0, 0))
          ((p0 :: p1 :: ps).getD ((p0 :: p1 :: ps).length - 1) (0, 0)) +
        trapTerm p0 p1) / 2 := by
  simp only [simps]
  rw [if_neg hp]
  rfl

/-- scipy `simps` integrates a constant exactly over any strictly increasing
grid, including the even-point averaged case. -/
theorem simps_const (c : ℚ) (grid : List ℚ) (hcn : grid.Chain' (· < ·)) (hne : grid ≠ []) :
    simps (grid.map (fun x => (x, c))) = c * (grid.getLastD 0 - grid.headD 0) := by
  by_cases hp : grid.length % 2 = 1
  · simp only [simps, List.length_map]
    rw [if_pos hp]
    exact simpChain_const c grid hcn hp
  · have hlen0 : grid.length ≠ 0 := fun h => hne (List.length_eq_zero.mp h)
    rcases grid with _ | ⟨g0, gtail⟩
    · exact absurd rfl hne
    rcases gtail with _ | ⟨g1, grest⟩
    · exact absurd rfl hp
    have hN : (g0 :: g1 :: grest).length = grest.length + 2 := by simp
    have hpair := List.chain'_iff_pairwise.mp hcn
    have hdl_sorted : ((g0 :: g1 :: grest).dropLast).Chain' (· < ·) :=
      List.chain'_iff_pairwise.mpr
        (List.Pairwise.sublist (List.dropLast_sublist _) hpair)
    have htl_sorted : (g1 :: grest).Chain' (· < ·) := (List.chain'_cons.mp hcn).2
    have hdl_len : ((g0 :: g1 :: grest).dropLast).length = grest.length + 1 := by
      rw [List.length_dropLast]
      simp
    have hdl_ne : ((g0 :: g1 :: grest).dropLast) ≠ [] := by
      intro h
      rw [h] at hdl_len
      simp at hdl_len
    have hCdl := simpChain_const c ((g0 :: g1 :: grest).dropLast) hdl_sorted
      (by
        rw [hdl_len]
        simp only [List.length_cons] at hp
        omega)
    have hCtl := simpChain_const c (g1 :: grest) htl_sorted
      (by
        simp only [List.length_cons] at hp ⊢
        omega)
    have hdl_last : ((g0 :: g1 :: grest).dropLast).getLastD 0 =
        (g0 :: g1 :: grest).getD grest.length 0 := by
      rw [getLastD_eq_getD_gen _ _ hdl_ne, hdl_len, Nat.add_sub_cancel]
      rw [List.getD_eq_getElem _ _ (by rw [hdl_len]; omega),
        List.getD_eq_getElem _ _ (by simp only [List.length_cons]; omega),
        List.getElem_dropLast]
    have hdl_head : ((g0 :: g1 :: grest).dropLast).headD 0 = g0 := by
      rw [headD_eq_getD _ hdl_ne, List.getD_eq_getElem _ _ (by rw [hdl_len]; omega),
        List.getElem_dropLast]
      simp
    have htl_last : (g1 :: grest).getLastD 0 = (g0 :: g1 :: grest).getLastD 0 :=
      (getLastD_cons_cons g0 g1 grest 0).symm
    have hmapeq : (g0 :: g1 :: grest).map (fun x => (x, c)) =
        (g0, c) :: (g1, c) :: grest.map (fun x => (x, c)) := rfl
    have hp2 : ¬ (((g0, c) :: (g1, c) :: grest.map (fun x => (x, c))).length % 2 = 1) := by
      simp only [List.length_cons, List.length_map]
      simp only [List.length_cons] at hp
      exact hp
    rw [hmapeq, simps_eq_even _ _ _ hp2, ← hmapeq]
    rw [show (g1, c) :: grest.map (fun x => (x, c)) = (g1 :: grest).map (fun x => (x, c))
      from rfl]
    rw [← List.map_dropLast, hCdl, hCtl]
    simp only [List.length_map]
    rw [getD_map_lt (fun x => (x, c)) _ ((g0 :: g1 :: grest).length - 2) 0 (0, 0)
        (by simp only [List.length_cons]; omega),
      getD_map_lt (fun x => (x, c)) _ ((g0 :: g1 :: grest).length - 1) 0 (0, 0)
        (by simp only [List.length_cons]; omega)]
    rw [trapTerm_const, trapTerm_const]
    rw [hdl_last, hdl_head, htl_last]
    have hgl : (g0 :: g1 :: grest).getD ((g0 :: g1 :: grest).length - 1) 0 =
        (g0 :: g1 :: grest).getLastD 0 :=
      (getLastD_eq_getD _ (by simp)).symm
    have hg2 : (g0 :: g1 :: grest).getD ((g0 :: g1 :: grest).length - 2) 0 =
        (g0 :: g1 :: grest).getD grest.length 0 := by
      rw [show (g0 :: g1 :: grest).length - 2 = grest.length by simp]
    rw [hgl, hg2]
    simp only [List.headD_cons]
    ring

theorem zip_self_map (l : List ℚ) (g : ℚ → ℚ) :
    l.zip (l.map g) = l.map (fun x => (x, g x)) := by
  induction l with
  | nil => rfl
  | cons x xs ih => simp [ih]

theorem range_map_getD (c : List ℚ) (f : ℚ → ℚ) :
    (List.range c.length).map (fun j => f (c.getD j 0)) = c.map f := by
  induction c with
  | nil => rfl
  | cons x xs ih =>
    rw [List.length_cons, List.range_succ_eq_map, List.map_cons, List.map_map]
    simp only [Function.comp_def, Nat.succ_eq_add_one, List.getD_cons_zero,
      List.getD_cons_succ]
    rw [ih, List.map_cons]

theorem zipWith_add_map : ∀ (c : List ℚ) (f g : ℚ → ℚ),
    List.zipWith (· + ·) (c.map f) (c.map g) = c.map (fun x => f x + g x)
  | [], _, _ => rfl
  | x :: xs, f, g => by
    simp only [List.map_cons, List.zipWith_cons_cons]
    rw [zipWith_add_map xs f g]

/-- `integrate_quads` of a constant integrand over an in-bounds span is exactly
the constant times the span width, in every dimension. -/
theorem integrate_quads_const (c : List ℚ) (γ : Trajectory) (ts : List ℚ)
    (ys : List (List ℚ)) (ta tb : ℚ)
    (ht : γ.t = some ts) (hy : γ.y = some ys) (hlen : ys.length = ts.length)
    (hc : ts.Chain' (· < ·)) (hn2 : 2 ≤ ts.length)
    (h0a : ts.headD 0 ≤ ta) (hab : ta ≤ tb) (hbl : tb ≤ ts.getLastD 0) :
    integrate_quads (fun _ _ => c) ta tb γ = .ok (c.map (fun x => x * (tb - ta))) := by
  have hne : ts ≠ [] := by
    intro h
    rw [h] at hn2
    simp at hn2
  rcases eq_or_lt_of_le hab with heq | hlt
  · subst heq
    rw [integrate_quads_self (fun _ _ => c) c.length γ ts ys ta ht hy hlen hc hn2 h0a hbl
      (fun _ _ => rfl)]
    have hmap : c.map (fun x => x * (ta - ta)) = List.replicate c.length 0 := by
      rw [@List.map_congr_left _ c _ _ (fun _ => (0 : ℚ))
        (fun a _ => by rw [sub_self, mul_zero]), List.map_const']
    rw [hmap]
  · obtain ⟨hs, hh, hl, hgne⟩ := quadGrid_lt_props ts ta tb hc hne h0a hlt hbl
    rcases hg : quadGrid ts ta tb with _ | ⟨g0, gr⟩
    · exact absurd hg hgne
    rw [hg] at hs hh hl
    rw [integrate_quads_eval (fun _ _ => c) γ ts ys ta tb g0 gr ht hy hlen hne
      (not_lt.mpr h0a) (not_lt.mpr hbl) hg]
    have hchain : (g0 :: gr).Chain' (· < ·) := List.chain'_iff_pairwise.mpr hs
    have hsv : simpsonVec (fun _ _ => c) ts ys (g0 :: gr) =
        c.map (fun x => x * (tb - ta)) := by
      have hone : ∀ j : ℕ,
          simps ((g0 :: gr).zip (((g0 :: gr).map (fun τ => c)).map (fun r => r.getD j 0))) =
            c.getD j 0 * (tb - ta) := by
        intro j
        rw [List.map_map]
        rw [show ((fun r => r.getD j 0) ∘ fun τ => c) = fun τ : ℚ => c.getD j 0 from rfl]
        rw [zip_self_map (g0 :: gr) (fun _ => c.getD j 0),
          simps_const (c.getD j 0) (g0 :: gr) hchain (by simp), hl, hh]
      have hm : (((g0 :: gr).map (fun τ => c)).headD []).length = c.length := rfl
      simp only [simpsonVec]
      rw [hm]
      calc (List.range c.length).map
            (fun j => simps ((g0 :: gr).zip (((g0 :: gr).map (fun τ => c)).map
              (fun r => r.getD j 0))))
          = (List.range c.length).map (fun j => c.getD j 0 * (tb - ta)) :=
            List.map_congr_left (fun j _ => hone j)
        _ = c.map (fun x => x * (tb - ta)) := range_map_getD c (fun x => x * (tb - ta))
    rw [hsv, map_add_zero]

/-- C7 (amended: exact additivity fails for general integrands because the
composite Simpson pairing changes when the span is split; it holds exactly for
constant integrands): for `t[0] ≤ t_a ≤ t_b ≤ t_c ≤ t[-1]` over a trajectory
with at least two samples and a constant integrand,
`integrate_quads(quad, [t_a, t_c])` equals
`integrate_quads(quad, [t_a, t_b]) + integrate_quads(quad, [t_b, t_c])`
exactly (zero offsets, componentwise vector addition). -/
theorem integrate_quads_const_additive (c : List ℚ) (γ : Trajectory) (ts : List ℚ)
    (ys : List (List ℚ)) (ta tb tc : ℚ)
    (ht : γ.t = some ts) (hy : γ.y = some ys) (hlen : ys.length = ts.length)
    (hc : ts.Chain' (· < ·)) (hn2 : 2 ≤ ts.length)
    (h0a : ts.headD 0 ≤ ta) (hab : ta ≤ tb) (hbc : tb ≤ tc)
    (hcl : tc ≤ ts.getLastD 0) :
    ∃ vab vbc vac,
      integrate_quads (fun _ _ => c) ta tb γ = .ok vab ∧
      integrate_quads (fun _ _ => c) tb tc γ = .ok vbc ∧
      integrate_quads (fun _ _ => c) ta tc γ = .ok vac ∧
      vac = List.zipWith (· + ·) vab vbc := by
  refine ⟨_, _, _,
    integrate_quads_const c γ ts ys ta tb ht hy hlen hc hn2 h0a hab (le_trans hbc hcl),
    integrate_quads_const c γ ts ys tb tc ht hy hlen hc hn2 (le_trans h0a hab) hbc hcl,
    integrate_quads_const c γ ts ys ta tc ht hy hlen hc hn2 h0a (le_trans hab hbc) hcl,
    ?_⟩
  rw [zipWith_add_map]
  exact List.map_congr_left (fun a _ => by ring)

theorem int_toNat_two : (2 : ℤ).toNat = 2 := rfl

/-- C7 counterexample: with the cubic integrand `t ↦ t³` over the samples
`[0, 1, 2]`, splitting `[0, 2]` at `1` changes the quadrature: the full span
gives the Simpson value `4`, while the two sub-spans are trapezoid values
`1/2` and `9/2`, so the sum is `5 ≠ 4` — the claimed (approximate) equality is
not an exact one. -/
theorem integrate_quads_additive_cex :
    integrate_quads quadCube 0 2 trajThree = .ok [4] ∧
    integrate_quads quadCube 0 1 trajThree = .ok [1/2] ∧
    integrate_quads quadCube 1 2 trajThree = .ok [9/2] ∧
    ¬ ([4] : List ℚ) = List.zipWith (· + ·) ([1/2] : List ℚ) ([9/2] : List ℚ) := by
  refine ⟨?_, ?_, ?_, by norm_num⟩ <;>
    norm_num [integrate_quads, trajThree, quadCube, quadGrid, idxSeq, interp,
      List.range_succ, Trajectory.call, trajY, simpsonVec, simps, simpChain, simpTriple,
      trapTerm, int_toNat_two]

theorem integrate_quads_const_additive_w :
    ∃ vab vbc vac,
      integrate_quads (fun _ _ => ([1] : List ℚ)) 0 (1/2) trajTwo = .ok vab ∧
      integrate_quads (fun _ _ => ([1] : List ℚ)) (1/2) 1 trajTwo = .ok vbc ∧
      integrate_quads (fun _ _ => ([1] : List ℚ)) 0 1 trajTwo = .ok vac ∧
      vac = List.zipWith (· + ·) vab vbc :=
  integrate_quads_const_additive [1] trajTwo [0, 1] [[0], [1]] 0 (1/2) 1 rfl rfl rfl
    (by norm_num [List.chain'_cons]) (by norm_num) (by norm_num) (by norm_num)
    (by norm_num) (by norm_num [List.getLastD_cons])

end Beluga
